import Mathlib

/-!
Verification development for the `contextd` semantic-context daemon.

The definitions below are a shallow embedding of the storage layer
(`src/storage/db.rs`), the indexing pass (`src/daemon.rs::index_file`),
the chunkers (`src/indexer/chunker.rs`), the embedding normalization
(`src/indexer/embeddings.rs`), the watcher forward loop
(`src/indexer/watcher.rs`) and the two query surfaces
(`src/api/mod.rs`, `src/mcp/server.rs`).

Modelling conventions: 32-bit floats are modelled as exact rationals
(`ℚ`) except for the embedder's L2 normalization, which needs a square
root and is modelled over `ℝ`; machine integers that the code never
overflows are `Nat`/`Int`; SQLite tables are lists of rows in rowid
order; fallible calls take an explicit success flag where the source
ignores the error (`let _ = ...`).
-/

/-- A row of the `files` table:
`files(id PK, path UNIQUE, last_modified INT, last_indexed INT NULL)`. -/
structure DbFile where
  id : Int
  path : String
  last_modified : Nat
  last_indexed : Option Nat
deriving DecidableEq, Repr

/-- A row of the `chunks` table. The embedding BLOB (little-endian f32s,
length implicit) is modelled as the decoded vector. -/
structure DbChunk where
  id : Int
  file_id : Int
  start_offset : Nat
  end_offset : Nat
  content : String
  embedding : Option (List ℚ)
  metadata : Option String
deriving DecidableEq, Repr

/-- The persistent database state owned by `Database` in `db.rs`. -/
structure DbState where
  files : List DbFile
  chunks : List DbChunk
deriving DecidableEq, Repr

/-- `Database::needs_reindexing` (db.rs:117-132): look up `last_indexed`
for the path; `Some(Some ts)` compares `current_modified > ts`,
`Some None` and `None` both return true. -/
def needsReindexing (files : List DbFile) (path : String) (current_modified : Nat) : Bool :=
  match files.find? (fun f => f.path = path) with
  | some f =>
      match f.last_indexed with
      | some ts => current_modified > ts
      | none => true
  | none => true

/-- `Database::add_or_update_file` (db.rs:73-93): upsert by path; on
conflict update `last_modified` and reset `last_indexed` to NULL.
Returns the updated state and the row id. -/
def addOrUpdateFile (st : DbState) (path : String) (lm : Nat) : DbState × Int :=
  match st.files.find? (fun f => f.path = path) with
  | some f =>
      ({ st with
          files := st.files.map (fun g =>
            if g.path = path then { g with last_modified := lm, last_indexed := none } else g) },
       f.id)
  | none =>
      let fresh := (st.files.map (fun f => f.id)).foldl max 0 + 1
      ({ st with files := st.files ++ [⟨fresh, path, lm, none⟩] }, fresh)

/-- `Database::clear_chunks` (db.rs:134-143): delete all chunk rows of
the file (the FTS shadow rows keyed by the same ids go with them). -/
def clearChunks (st : DbState) (fid : Int) : DbState :=
  { st with chunks := st.chunks.filter (fun c => c.file_id ≠ fid) }

/-- Data of one chunk to insert during a re-index pass. -/
structure ChunkData where
  start : Nat
  stop : Nat
  content : String
  embedding : Option (List ℚ)
  metadata : Option String
deriving DecidableEq, Repr

/-- `Database::add_chunk` (db.rs:145-181): a single autocommit INSERT.
`ok = false` models the INSERT failing, which leaves the table
unchanged; the caller in `daemon.rs` discards the error. -/
def addChunk (st : DbState) (ok : Bool) (fid : Int) (cd : ChunkData) : DbState :=
  if ok then
    let fresh := (st.chunks.map (fun c => c.id)).foldl max 0 + 1
    { st with chunks := st.chunks ++ [⟨fresh, fid, cd.start, cd.stop, cd.content, cd.embedding, cd.metadata⟩] }
  else st

/-- `Database::mark_indexed` (db.rs:108-115): set `last_indexed` to the
current time. -/
def markIndexed (st : DbState) (fid : Int) (now : Nat) : DbState :=
  { st with
      files := st.files.map (fun f =>
        if f.id = fid then { f with last_indexed := some now } else f) }

/-- The storage phase of `daemon.rs::index_file` (lines 201-232):
`add_or_update_file`, then `clear_chunks`, then one `add_chunk` per new
chunk, then `mark_indexed` — each its own autocommit statement, every
error discarded with `let _ =` so the pass always runs to the end.
`work` carries each chunk together with the success of its INSERT. -/
def indexFilePass (st : DbState) (path : String) (lm : Nat)
    (work : List (ChunkData × Bool)) (now : Nat) : DbState :=
  let r := addOrUpdateFile st path lm
  let st2 := clearChunks r.1 r.2
  let st3 := work.foldl (fun s w => addChunk s w.2 r.2 w.1) st2
  markIndexed st3 r.2 now

/-- Initial state for the C1 scenario: one file that was fully indexed
at time 150 with one stored chunk. -/
def c1Db : DbState :=
  { files := [⟨1, "/a", 100, some 150⟩],
    chunks := [⟨10, 1, 0, 5, "old", none, none⟩] }

/-- C1: a re-index pass of `/a` (mtime 200) with a single new chunk
whose INSERT fails. Because nothing is transactional, the previously
stored chunk is already gone and `last_indexed` is still set. -/
theorem c1_reindex_not_atomic :
    (indexFilePass c1Db "/a" 200 [(⟨0, 3, "new", none, none⟩, false)] 300).chunks = [] ∧
    (indexFilePass c1Db "/a" 200 [(⟨0, 3, "new", none, none⟩, false)] 300).files =
      [⟨1, "/a", 200, some 300⟩] := by
  constructor <;> rfl

/-- C2: `needs_reindexing(path, t)` is true iff the `files` table has no
row for the path, or that row's `last_indexed` is NULL, or `t` is
strictly greater than its `last_indexed`. Path uniqueness (the UNIQUE
constraint) is the `Nodup` hypothesis. -/
theorem c2_needs_reindexing_iff (files : List DbFile) (path : String) (t : Nat)
    (huniq : (files.map (fun f => f.path)).Nodup) :
    needsReindexing files path t = true ↔
      ((¬ ∃ f ∈ files, f.path = path) ∨
       (∃ f ∈ files, f.path = path ∧ f.last_indexed = none) ∨
       (∃ f ∈ files, f.path = path ∧ ∃ ts, f.last_indexed = some ts ∧ t > ts)) := by
  unfold needsReindexing
  rcases hfind : files.find? (fun f => f.path = path) with _ | f <;> rw [hfind]
  · simp only [List.find?_eq_none] at hfind
    constructor
    · intro _
      left
      rintro ⟨f, hf, hp⟩
      have := hfind f hf
      simp [hp] at this
    · intro _; rfl
  · dsimp only
    have hmem : f ∈ files := List.mem_of_find?_eq_some hfind
    have hfp : f.path = path := by
      have := List.find?_some hfind
      simpa using this
    -- with Nodup paths, any row whose path matches must be f itself
    have huniq' : ∀ g ∈ files, g.path = path → g = f := by
      intro g hg hgp
      exact List.inj_on_of_nodup_map huniq hg hmem (by rw [hgp, hfp])
    rcases hLI : f.last_indexed with _ | ts <;> dsimp only
    · constructor
      · intro _
        right; left
        exact ⟨f, hmem, hfp, hLI⟩
      · intro _; rfl
    · constructor
      · intro h
        right; right
        refine ⟨f, hmem, hfp, ts, hLI, ?_⟩
        simpa using h
      · rintro (hno | ⟨g, hg, hgp, hgnone⟩ | ⟨g, hg, hgp, ts', hts', hgt⟩)
        · exact absurd ⟨f, hmem, hfp⟩ hno
        · rw [huniq' g hg hgp] at hgnone
          rw [hgnone] at hLI; cases hLI
        · rw [huniq' g hg hgp] at hts'
          rw [hts'] at hLI
          injection hLI with h'
          subst h'
          simpa using hgt

/-- Witness for C2 at a concrete table. -/
theorem c2_needs_reindexing_iff_witness :
    ((([⟨1, "/a", 100, some 150⟩, ⟨2, "/b", 100, none⟩] : List DbFile).map
        (fun f => f.path)).Nodup) ∧
    (needsReindexing [⟨1, "/a", 100, some 150⟩, ⟨2, "/b", 100, none⟩] "/a" 200 = true ↔
      ((¬ ∃ f ∈ ([⟨1, "/a", 100, some 150⟩, ⟨2, "/b", 100, none⟩] : List DbFile), f.path = "/a") ∨
       (∃ f ∈ ([⟨1, "/a", 100, some 150⟩, ⟨2, "/b", 100, none⟩] : List DbFile),
          f.path = "/a" ∧ f.last_indexed = none) ∨
       (∃ f ∈ ([⟨1, "/a", 100, some 150⟩, ⟨2, "/b", 100, none⟩] : List DbFile),
          f.path = "/a" ∧ ∃ ts, f.last_indexed = some ts ∧ 200 > ts))) :=
  ⟨by decide, c2_needs_reindexing_iff _ _ _ (by decide)⟩

/-- `SearchOptions` (db.rs:508-519). -/
structure SearchOptions where
  limit : Option Nat := none
  start_time : Option Nat := none
  end_time : Option Nat := none
  file_types : Option (List String) := none
  paths : Option (List String) := none
  min_score : Option ℚ := none
  recency_weight : Option ℚ := none
deriving DecidableEq, Repr

/-- `SearchResult` (db.rs:522-530). -/
structure SearchResult where
  id : Int
  content : String
  score : ℚ
  file_path : String
  file_type : String
  last_modified : Nat
deriving DecidableEq, Repr

/-- Does `needle` occur at the head of `hay`? (helper for substring). -/
def leadingMatch : List Char → List Char → Bool
  | _, [] => true
  | [], _ :: _ => false
  | h :: t, n :: m => h == n && leadingMatch t m

/-- Rust `str::contains(&str)`: `needle` occurs somewhere in `hay`. -/
def containsSeq (hay needle : List Char) : Bool :=
  match hay with
  | [] => leadingMatch [] needle
  | _ :: t => leadingMatch hay needle || containsSeq t needle

/-- `file_path.rsplit('.').next().unwrap_or("").to_lowercase()`
(db.rs:410): the segment after the last dot (the whole string when
there is no dot), lowercased. -/
def fileTypeOf (p : String) : String :=
  (((p.data.reverse.takeWhile (fun c => c ≠ '.')).reverse).map Char.toLower).asString

/-- File-type post-filter (db.rs:413-417): keep the row iff some
requested type equals the extension case-insensitively. -/
def passesTypeFilter (types : Option (List String)) (ft : String) : Bool :=
  match types with
  | none => true
  | some ts => ts.any (fun t => (t.data.map Char.toLower).asString == ft)

/-- Path post-filter (db.rs:420-424): at least one filter string must
occur as a substring of the file path. -/
def passesPathFilter (pf : Option (List String)) (path : String) : Bool :=
  match pf with
  | none => true
  | some ps => ps.any (fun p => containsSeq path.data p.data)

/-- `age_hours = (now.saturating_sub(last_modified)) / 3600`
(db.rs:457): u64 integer division; `Nat` subtraction is saturating. -/
def ageHours (now lm : Nat) : Nat :=
  (now - lm) / 3600

/-- `recency_boost = 1 / (1 + age_hours / 24)` (db.rs:459), the cast of
`age_hours` to float modelled as a cast to `ℚ`. -/
def recencyBoost (a : Nat) : ℚ :=
  1 / (1 + (a : ℚ) / 24)

/-- The final score of one row (db.rs:451-463): recency re-weighting
applies only when the effective weight (default 0.1) is positive. -/
def finalScore (w score : ℚ) (now lm : Nat) : ℚ :=
  if w > 0 then score * (1 - w) + recencyBoost (ageHours now lm) * w
  else score

/-- Dot product of two equal-length vectors (db.rs:437-441). -/
def dotProduct (a b : List ℚ) : ℚ :=
  ((a.zip b).map (fun p => p.1 * p.2)).sum

/-- The query cache: an LRU from embedding (the raw key bytes decode
back to the vector) to pre-sorted results, capacity 100 (db.rs:12,25). -/
def Cache := List (List ℚ × List SearchResult)

/-- `LruCache::get` also promotes the entry; only the lookup matters to
the claims, promotion is modelled in `cachePromote`. -/
def cacheGet (c : Cache) (k : List ℚ) : Option (List SearchResult) :=
  (c.find? (fun e => e.1 = k)).map (fun e => e.2)

/-- Move the entry for `k` (if any) to the most-recent position. -/
def cachePromote (c : Cache) (k : List ℚ) : Cache :=
  match c.find? (fun e => e.1 = k) with
  | some e => e :: c.filter (fun e' => ¬ e'.1 = k)
  | none => c

/-- `LruCache::put`: insert most-recent, evict past capacity 100. -/
def cachePut (c : Cache) (k : List ℚ) (v : List SearchResult) : Cache :=
  ((k, v) :: c.filter (fun e => ¬ e.1 = k)).take 100

/-- The SQL row stream of `search_chunks_enhanced` (db.rs:375-402):
chunks with a non-null embedding joined to their file, filtered by the
optional `last_modified` window, in rowid order. -/
def scanRows (db : DbState) (startT endT : Option Nat) :
    List (Int × String × List ℚ × String × Nat) :=
  db.chunks.filterMap (fun c =>
    match c.embedding with
    | none => none
    | some emb =>
        match db.files.find? (fun f => f.id = c.file_id) with
        | none => none
        | some f =>
            if (match startT with | some s => decide (f.last_modified ≥ s) | none => true) &&
               (match endT with | some e => decide (f.last_modified ≤ e) | none => true)
            then some (c.id, c.content, emb, f.path, f.last_modified)
            else none)

/-- One loop iteration of the scan (db.rs:406-473): post-filters in
order (file type, path, dimension, `min_score` on the raw cosine), then
the recency re-weighting. -/
def scoreRow (query : List ℚ) (opts : SearchOptions) (now : Nat)
    (row : Int × String × List ℚ × String × Nat) : Option SearchResult :=
  let (id, content, emb, file_path, lm) := row
  let ft := fileTypeOf file_path
  if ¬ passesTypeFilter opts.file_types ft then none
  else if ¬ passesPathFilter opts.paths file_path then none
  else if ¬ (emb.length = query.length) then none
  else
    let score := dotProduct emb query
    if match opts.min_score with | some m => decide (score < m) | none => false then none
    else
      let w := opts.recency_weight.getD (1/10)
      some ⟨id, content, finalScore w score now lm, file_path, ft, lm⟩

/-- Stable insertion into a list sorted by descending score: the new
element (earlier in scan order) goes before later equal-score ones,
matching Rust's stable `sort_by` (db.rs:475-479). -/
def insertDesc (x : SearchResult) : List SearchResult → List SearchResult
  | [] => [x]
  | y :: ys => if y.score > x.score then y :: insertDesc x ys else x :: y :: ys

/-- Stable sort by descending score. -/
def sortDesc : List SearchResult → List SearchResult
  | [] => []
  | x :: xs => insertDesc x (sortDesc xs)

/-- `Database::search_chunks_enhanced` (db.rs:325-497). Returns the
result list and the cache afterwards. The cache key is the query
embedding and is used only when no filter other than `limit` and
`min_score` is set; a hit re-applies `min_score` (against the cached,
recency-adjusted scores) and `limit`; a miss scans, sorts, stores the
first 50 scored rows, then truncates to `limit`. -/
def searchChunksEnhanced (db : DbState) (cache : Cache) (query : List ℚ)
    (opts : SearchOptions) (now : Nat) : List SearchResult × Cache :=
  let limit := opts.limit.getD 10
  let cacheKey : Option (List ℚ) :=
    if opts.start_time = none ∧ opts.end_time = none ∧
       opts.file_types = none ∧ opts.paths = none
    then some query else none
  let hit : Option (List SearchResult) :=
    match cacheKey with
    | some k => cacheGet cache k
    | none => none
  match hit with
  | some results =>
      let results : List SearchResult := match opts.min_score with
        | some m => results.filter (fun r => r.score ≥ m)
        | none => results
      (results.take limit, cachePromote cache query)
  | none =>
      let scored := (scanRows db opts.start_time opts.end_time).filterMap
        (scoreRow query opts now)
      let sorted := sortDesc scored
      let cache2 := match cacheKey with
        | some k => cachePut cache k (sorted.take 50)
        | none => cache
      (sorted.take limit, cache2)

/-- C4 counterexample: two timestamps 1800 s apart that fall into the
same integer `age_hours` bucket (u64 division by 3600) get exactly the
same final score, so the strictly-larger `last_modified` is not ranked
strictly higher. -/
theorem c4_recency_tie_counterexample :
    (1800 : Nat) > 0 ∧
    finalScore (1/2) (1/2) 3000 1800 = finalScore (1/2) (1/2) 3000 0 := by
  constructor
  · decide
  · norm_num [finalScore, recencyBoost, ageHours]

/-- The recency boost is strictly antitone in the (integer) age. -/
theorem recencyBoost_strictAnti {a b : Nat} (h : a < b) :
    recencyBoost b < recencyBoost a := by
  unfold recencyBoost
  have hab : (a : ℚ) < b := by exact_mod_cast h
  have h1 : (0 : ℚ) < 1 + (a : ℚ) / 24 := by positivity
  have h2 : (1 : ℚ) + (a : ℚ) / 24 < 1 + (b : ℚ) / 24 := by linarith
  exact one_div_lt_one_div_of_lt h1 h2

/-- C4 amended: with positive recency weight and equal cosine score, the
chunk whose integer age bucket `(now − lm) / 3600` is strictly smaller
gets a strictly higher final score (ties inside one bucket remain). -/
theorem c4_recency_direction_amended (w s : ℚ) (now lm1 lm2 : Nat)
    (hw : 0 < w) (hage : ageHours now lm1 < ageHours now lm2) :
    finalScore w s now lm1 > finalScore w s now lm2 := by
  unfold finalScore
  rw [if_pos hw, if_pos hw]
  have hb := recencyBoost_strictAnti hage
  have := mul_lt_mul_of_pos_right hb hw
  linarith

/-- Witness for C4 amended: a file touched now versus one a week old. -/
theorem c4_recency_direction_amended_witness :
    (0 : ℚ) < 1/2 ∧ ageHours 700000 700000 < ageHours 700000 0 ∧
    finalScore (1/2) (1/2) 700000 700000 > finalScore (1/2) (1/2) 700000 0 :=
  ⟨by norm_num, by decide,
   c4_recency_direction_amended (1/2) (1/2) 700000 700000 0 (by norm_num) (by decide)⟩

/-- A put immediately followed by a get on the same key hits. -/
theorem cacheGet_cachePut (c : Cache) (k : List ℚ) (v : List SearchResult) :
    cacheGet (cachePut c k v) k = some v := by
  unfold cacheGet cachePut
  rw [show (100 : Nat) = 99 + 1 from rfl, List.take_succ_cons]
  rw [List.find?_cons_of_pos _ (by simp)]
  rfl

/-- C3 counterexample: one chunk of cosine 1. A first unfiltered-but-for
`min_score = 2` query misses and caches the scored list *after* the
`min_score` cutoff (empty). A later query with the same embedding and no
`min_score` (weaker) hits that entry and returns nothing, while a fresh
search returns the chunk. -/
theorem c3_cache_not_transparent :
    (searchChunksEnhanced ⟨[⟨1, "/a.txt", 100, some 100⟩], [⟨1, 1, 0, 5, "hello", some [1], none⟩]⟩
        ((searchChunksEnhanced ⟨[⟨1, "/a.txt", 100, some 100⟩], [⟨1, 1, 0, 5, "hello", some [1], none⟩]⟩
            [] [1] { min_score := some 2 } 100).2)
        [1] {} 100).1 ≠
    (searchChunksEnhanced ⟨[⟨1, "/a.txt", 100, some 100⟩], [⟨1, 1, 0, 5, "hello", some [1], none⟩]⟩
        [] [1] {} 100).1 := by
  have hfresh :
      (searchChunksEnhanced ⟨[⟨1, "/a.txt", 100, some 100⟩], [⟨1, 1, 0, 5, "hello", some [1], none⟩]⟩
          [] [1] {} 100).1 = [⟨1, "hello", 1, "/a.txt", "txt", 100⟩] := by
    simp [searchChunksEnhanced, scanRows, scoreRow, cacheGet, sortDesc, insertDesc,
      fileTypeOf, passesTypeFilter, passesPathFilter, dotProduct, finalScore,
      recencyBoost, ageHours]
    decide
  have hcached :
      (searchChunksEnhanced ⟨[⟨1, "/a.txt", 100, some 100⟩], [⟨1, 1, 0, 5, "hello", some [1], none⟩]⟩
          ((searchChunksEnhanced ⟨[⟨1, "/a.txt", 100, some 100⟩], [⟨1, 1, 0, 5, "hello", some [1], none⟩]⟩
              [] [1] { min_score := some 2 } 100).2)
          [1] {} 100).1 = [] := by
    simp [searchChunksEnhanced, scanRows, scoreRow, cacheGet, cachePut, cachePromote,
      sortDesc, insertDesc, fileTypeOf, passesTypeFilter, passesPathFilter, dotProduct,
      finalScore, recencyBoost, ageHours]
  rw [hfresh, hcached]
  simp

/-- C3 amended: the cache round-trip is exact only for `min_score`-free
fills and reads: if the filling query had no filters and no `min_score`,
a later query with the same embedding, no `min_score` and `limit ≤ 50`
returns exactly what a fresh (uncached) search would. -/
theorem c3_cache_roundtrip (db : DbState) (cache : Cache) (query : List ℚ)
    (l1 l2 now : Nat) (hmiss : cacheGet cache query = none) (hl2 : l2 ≤ 50) :
    (searchChunksEnhanced db
        ((searchChunksEnhanced db cache query { limit := some l1 } now).2)
        query { limit := some l2 } now).1 =
    (searchChunksEnhanced db cache query { limit := some l2 } now).1 := by
  simp [searchChunksEnhanced, scoreRow, hmiss, cacheGet_cachePut, List.take_take,
    min_eq_left hl2, min_eq_right hl2]
  rfl

/-- Witness for C3 amended on a tiny database. -/
theorem c3_cache_roundtrip_witness :
    cacheGet [] [(1 : ℚ)] = none ∧ (7 : Nat) ≤ 50 ∧
    (searchChunksEnhanced ⟨[⟨1, "/a.txt", 100, some 100⟩], [⟨1, 1, 0, 5, "hello", some [1], none⟩]⟩
        ((searchChunksEnhanced ⟨[⟨1, "/a.txt", 100, some 100⟩], [⟨1, 1, 0, 5, "hello", some [1], none⟩]⟩
            [] [1] { limit := some 3 } 100).2)
        [1] { limit := some 7 } 100).1 =
    (searchChunksEnhanced ⟨[⟨1, "/a.txt", 100, some 100⟩], [⟨1, 1, 0, 5, "hello", some [1], none⟩]⟩
        [] [1] { limit := some 7 } 100).1 :=
  ⟨rfl, by decide,
   c3_cache_roundtrip _ [] [1] 3 7 100 rfl (by decide)⟩

/-- The RRF accumulation loop (db.rs:295-305): starting at `rank`, each
row whose id matches contributes `1 / (60 + (rank + 1))`. -/
def rrfSumFrom (rank : Nat) : List SearchResult → Int → ℚ
  | [], _ => 0
  | r :: t, id =>
      (if r.id = id then 1 / (60 + ((rank : ℚ) + 1)) else 0) + rrfSumFrom (rank + 1) t id

/-- The fused RRF score of a chunk id: its contribution from the vector
list plus its contribution from the FTS list (db.rs:292-305). -/
def rrfScore (vec fts : List SearchResult) (id : Int) : ℚ :=
  rrfSumFrom 0 vec id + rrfSumFrom 0 fts id

/-- Keep the first occurrence of every id, in order. -/
def dedupFirst : List Int → List Int
  | [] => []
  | x :: xs => x :: (dedupFirst xs).filter (fun y => y ≠ x)

/-- Metadata comes from whichever source saw the chunk first, the
vector list taking precedence (db.rs:298,304). -/
def lookupResult (vec fts : List SearchResult) (id : Int) : Option SearchResult :=
  match vec.find? (fun r => r.id = id) with
  | some r => some r
  | none => fts.find? (fun r => r.id = id)

/-- The RRF fusion step of `search_chunks_hybrid` (db.rs:291-321):
union the two id sets, attach the summed score, sort descending,
truncate. `HashMap::into_values` yields an unspecified order; the model
fixes first-seen order (`c5_rrf_monotone` quantifies over every
descending-sorted arrangement, covering all admissible orders). -/
def hybridFuse (vec fts : List SearchResult) (limit : Nat) : List SearchResult :=
  let ids := dedupFirst ((vec.map (fun r => r.id)) ++ (fts.map (fun r => r.id)))
  let entries := ids.filterMap (fun id =>
    (lookupResult vec fts id).map (fun r => { r with score := rrfScore vec fts id }))
  (sortDesc entries).take limit

/-- The Rust-side post-filters of the FTS leg (db.rs:260-289): file-type
and path filters on the rows the FTS query returned; the relevance
score is a placeholder 0. -/
def ftsLegFilter (opts : SearchOptions) (rows : List (Int × String × String × Nat)) :
    List SearchResult :=
  rows.filterMap (fun row =>
    let (id, content, path, lm) := row
    let ft := fileTypeOf path
    if ¬ passesTypeFilter opts.file_types ft then none
    else if ¬ passesPathFilter opts.paths path then none
    else some ⟨id, content, 0, path, ft, lm⟩)

/-- `Database::search_chunks_hybrid` (db.rs:205-322). The FTS MATCH
query itself is engine-internal; `ftsOracle` stands for the SQL result
(query text plus the `last_modified` window are its only inputs, which
is exactly what db.rs:228-247 passes; at most 50 rows, by FTS rank).
The vector leg runs with `limit = 50` and `min_score: None`. -/
def searchChunksHybrid (db : DbState) (cache : Cache)
    (ftsOracle : String → Option Nat → Option Nat → List (Int × String × String × Nat))
    (query_text : String) (query_embedding : List ℚ) (opts : SearchOptions) (now : Nat) :
    List SearchResult × Cache :=
  let limit := opts.limit.getD 10
  let vopts : SearchOptions :=
    { limit := some 50, start_time := opts.start_time, end_time := opts.end_time,
      file_types := opts.file_types, paths := opts.paths,
      min_score := none, recency_weight := opts.recency_weight }
  let vres := searchChunksEnhanced db cache query_embedding vopts now
  let fres := ftsLegFilter opts (ftsOracle query_text opts.start_time opts.end_time)
  (hybridFuse vres.1 fres limit, vres.2)

/-- C10: hybrid search ignores the caller's `min_score` entirely — the
vector leg is run with `min_score` cleared and no cutoff is applied to
the fused results — so its output (and the resulting cache) is the same
whatever `min_score` is set to. -/
theorem c10_hybrid_min_score_independent (db : DbState) (cache : Cache)
    (ftsOracle : String → Option Nat → Option Nat → List (Int × String × String × Nat))
    (query_text : String) (query_embedding : List ℚ) (opts : SearchOptions)
    (now : Nat) (m : Option ℚ) :
    searchChunksHybrid db cache ftsOracle query_text query_embedding
      { opts with min_score := m } now =
    searchChunksHybrid db cache ftsOracle query_text query_embedding opts now := by
  cases opts
  rfl

/-- An id absent from a list receives no RRF contribution from it. -/
theorem rrfSumFrom_eq_zero (k : Nat) (l : List SearchResult) (x : Int)
    (hx : x ∉ l.map (fun r => r.id)) : rrfSumFrom k l x = 0 := by
  induction l generalizing k with
  | nil => rfl
  | cons r t ih =>
      simp only [List.map_cons, List.mem_cons, not_or] at hx
      have hne : ¬ r.id = x := fun h => hx.1 h.symm
      simp only [rrfSumFrom, if_neg hne, ih (k+1) hx.2, zero_add, add_zero]

/-- A member of a mapped cons list that differs from the head's id is a
member of the mapped tail. -/
theorem mem_map_id_tail {x : Int} {r : SearchResult} {t : List SearchResult}
    (hx : x ∈ (r :: t).map (fun s => s.id)) (hne : ¬ r.id = x) :
    x ∈ t.map (fun s => s.id) := by
  rw [List.map_cons] at hx
  rcases List.mem_cons.1 hx with h | h
  · exact absurd h.symm hne
  · exact h

/-- With duplicate-free ids, the RRF contribution of a present id is
exactly `1 / (60 + rank)` at its 1-indexed rank. -/
theorem rrfSumFrom_eq_rank (k : Nat) (l : List SearchResult) (x : Int)
    (hnd : (l.map (fun r => r.id)).Nodup) (hx : x ∈ l.map (fun r => r.id)) :
    rrfSumFrom k l x =
      1 / (60 + (((k : ℚ) + ((l.map (fun r => r.id)).indexOf x : ℚ)) + 1)) := by
  induction l generalizing k with
  | nil => simp at hx
  | cons r t ih =>
      simp only [List.map_cons, List.nodup_cons] at hnd
      by_cases hhead : r.id = x
      · have hxt : x ∉ t.map (fun r => r.id) := by
          rw [← hhead]; exact hnd.1
        simp only [rrfSumFrom, if_pos hhead, rrfSumFrom_eq_zero (k+1) t x hxt, add_zero,
          List.map_cons, hhead, List.indexOf_cons_self]
        norm_num
      · have hxt : x ∈ t.map (fun r => r.id) := mem_map_id_tail hx hhead
        have := ih (k+1) hnd.2 hxt
        simp only [rrfSumFrom, if_neg hhead, zero_add, this, List.map_cons]
        rw [List.indexOf_cons_ne _ hhead]
        push_cast
        ring_nf

/-- strict antitonicity of the RRF contribution in the rank. -/
theorem rrf_contribution_lt {i j : Nat} (h : i < j) :
    1 / (60 + ((j : ℚ) + 1)) < 1 / (60 + ((i : ℚ) + 1)) := by
  have hij : (i : ℚ) < j := by exact_mod_cast h
  have h1 : (0 : ℚ) < 60 + ((i : ℚ) + 1) := by positivity
  exact one_div_lt_one_div_of_lt h1 (by linarith)

/-- `sortedByScoreDesc l` checks that scores never increase along `l`,
which is what `sort_by` with the descending comparator guarantees. -/
def sortedByScoreDesc : List SearchResult → Bool
  | [] => true
  | [_] => true
  | a :: b :: t => (decide (a.score ≥ b.score)) && sortedByScoreDesc (b :: t)

/-- In a descending list the head dominates every element. -/
theorem sortedByScoreDesc_head_ge {r : SearchResult} {t : List SearchResult}
    (h : sortedByScoreDesc (r :: t) = true) : ∀ s ∈ t, s.score ≤ r.score := by
  induction t generalizing r with
  | nil => intro s hs; cases hs
  | cons b t ih =>
      simp only [sortedByScoreDesc, Bool.and_eq_true, decide_eq_true_eq] at h
      intro s hs
      rcases List.mem_cons.1 hs with h' | h'
      · rw [h']; exact h.1
      · exact le_trans (ih h.2 s h') h.1

/-- The tail of a descending list is descending. -/
theorem sortedByScoreDesc_tail {r : SearchResult} {t : List SearchResult}
    (h : sortedByScoreDesc (r :: t) = true) : sortedByScoreDesc t = true := by
  cases t with
  | nil => rfl
  | cons b t =>
      simp only [sortedByScoreDesc, Bool.and_eq_true] at h
      exact h.2

/-- In a list sorted by descending score whose scores are a function of
the id, an id with strictly greater score sits at a strictly earlier
index. -/
theorem sorted_indexOf_lt (g : Int → ℚ) (l : List SearchResult) (x y : Int)
    (hs : sortedByScoreDesc l = true)
    (hg : ∀ r ∈ l, r.score = g r.id)
    (hx : x ∈ l.map (fun r => r.id)) (hy : y ∈ l.map (fun r => r.id))
    (hlt : g y < g x) :
    (l.map (fun r => r.id)).indexOf x < (l.map (fun r => r.id)).indexOf y := by
  induction l with
  | nil => simp at hx
  | cons r t ih =>
      have hxy : x ≠ y := by
        intro h; rw [h] at hlt; exact lt_irrefl _ hlt
      by_cases hrx : r.id = x
      · have hry : r.id ≠ y := by rw [hrx]; exact hxy
        simp only [List.map_cons]
        rw [hrx, List.indexOf_cons_self, List.indexOf_cons_ne _ hxy]
        exact Nat.succ_pos _
      · by_cases hry : r.id = y
        · exfalso
          have hxt : x ∈ t.map (fun r => r.id) := mem_map_id_tail hx hrx
          rcases List.mem_map.1 hxt with ⟨rx, hrxt, hrxid⟩
          have h1 : rx.score ≤ r.score := sortedByScoreDesc_head_ge hs rx hrxt
          have h2 : rx.score = g x := by rw [hg rx (List.mem_cons_of_mem _ hrxt), hrxid]
          have h3 : r.score = g y := by rw [hg r (List.mem_cons_self _ _), hry]
          rw [h2, h3] at h1
          exact absurd hlt (not_lt.2 h1)
        · have hxt : x ∈ t.map (fun r => r.id) := mem_map_id_tail hx hrx
          have hyt : y ∈ t.map (fun r => r.id) := mem_map_id_tail hy hry
          have := ih (sortedByScoreDesc_tail hs)
            (fun s hsmem => hg s (List.mem_cons_of_mem _ hsmem)) hxt hyt
          simp only [List.map_cons]
          rw [List.indexOf_cons_ne _ hrx, List.indexOf_cons_ne _ hry]
          exact Nat.succ_lt_succ this

/-- A member of a prefix has its first occurrence inside the prefix. -/
theorem indexOf_lt_of_mem_take {α : Type} [DecidableEq α] {l : List α} {a : α} {n : Nat}
    (h : a ∈ l.take n) : l.indexOf a < n := by
  induction l generalizing n with
  | nil => simp at h
  | cons b t ih =>
      cases n with
      | zero => simp at h
      | succ n =>
          by_cases hba : b = a
          · rw [hba, List.indexOf_cons_self]; exact Nat.succ_pos _
          · rw [List.indexOf_cons_ne _ (by simpa using hba)]
            rcases List.mem_cons.1 (by simpa using h) with h' | h'
            · exact absurd h'.symm hba
            · exact Nat.succ_lt_succ (ih h')

/-- An element whose first occurrence is inside a prefix is in it. -/
theorem mem_take_of_indexOf_lt {α : Type} [DecidableEq α] {l : List α} {a : α} {n : Nat}
    (hmem : a ∈ l) (h : l.indexOf a < n) : a ∈ l.take n := by
  induction l generalizing n with
  | nil => simp at hmem
  | cons b t ih =>
      cases n with
      | zero => exact absurd h (by simp)
      | succ n =>
          by_cases hba : b = a
          · rw [List.take_succ_cons, hba]; exact List.mem_cons_self _ _
          · rw [List.indexOf_cons_ne _ (by simpa using hba)] at h
            rcases List.mem_cons.1 hmem with h' | h'
            · exact absurd h'.symm hba
            · exact List.mem_cons_of_mem _ (ih h' (Nat.lt_of_succ_lt_succ h))

/-- C5: the hybrid score of a chunk is the sum over the two ranked lists
of `1/(60 + rank)` (rank 1-indexed); hence if `X` is ranked before `Y`
in both the vector list and the FTS list (both present in both, ids
duplicate-free per list), then in any fused output — any arrangement of
ids carrying the summed scores that is sorted by descending score, as
`search_chunks_hybrid` produces — `X` appears strictly before `Y`, and
whenever `Y` survives the `limit` truncation so does `X`. -/
theorem c5_rrf_monotone (vec fts out : List SearchResult) (X Y : Int)
    (hvN : (vec.map (fun r => r.id)).Nodup) (hfN : (fts.map (fun r => r.id)).Nodup)
    (hXv : X ∈ vec.map (fun r => r.id)) (hYv : Y ∈ vec.map (fun r => r.id))
    (hXf : X ∈ fts.map (fun r => r.id)) (hYf : Y ∈ fts.map (fun r => r.id))
    (hrankV : (vec.map (fun r => r.id)).indexOf X < (vec.map (fun r => r.id)).indexOf Y)
    (hrankF : (fts.map (fun r => r.id)).indexOf X < (fts.map (fun r => r.id)).indexOf Y)
    (hout_score : ∀ r ∈ out, r.score = rrfScore vec fts r.id)
    (hsorted : sortedByScoreDesc out = true)
    (hXo : X ∈ out.map (fun r => r.id)) (hYo : Y ∈ out.map (fun r => r.id)) :
    (out.map (fun r => r.id)).indexOf X < (out.map (fun r => r.id)).indexOf Y ∧
    ∀ limit : Nat, Y ∈ (out.take limit).map (fun r => r.id) →
      X ∈ (out.take limit).map (fun r => r.id) := by
  have hscore : rrfScore vec fts Y < rrfScore vec fts X := by
    unfold rrfScore
    rw [rrfSumFrom_eq_rank 0 vec X hvN hXv, rrfSumFrom_eq_rank 0 vec Y hvN hYv,
        rrfSumFrom_eq_rank 0 fts X hfN hXf, rrfSumFrom_eq_rank 0 fts Y hfN hYf]
    have h1 := rrf_contribution_lt hrankV
    have h2 := rrf_contribution_lt hrankF
    push_cast at h1 h2 ⊢
    ring_nf at h1 h2 ⊢
    exact add_lt_add h1 h2
  have hidx := sorted_indexOf_lt (rrfScore vec fts) out X Y hsorted hout_score hXo hYo hscore
  refine ⟨hidx, fun limit hYtake => ?_⟩
  rw [List.map_take] at hYtake ⊢
  have hYidx := indexOf_lt_of_mem_take hYtake
  exact mem_take_of_indexOf_lt hXo (lt_trans hidx hYidx)

/-- Concrete vector-leg list for the C5 witness. -/
def c5Vec : List SearchResult :=
  [⟨1, "a", 0, "p.rs", "rs", 0⟩, ⟨2, "b", 0, "q.rs", "rs", 0⟩]

/-- Concrete FTS-leg list for the C5 witness. -/
def c5Fts : List SearchResult :=
  [⟨1, "a", 0, "p.rs", "rs", 0⟩, ⟨2, "b", 0, "q.rs", "rs", 0⟩]

/-- Concrete fused output for the C5 witness, carrying the summed RRF
scores in descending order. -/
def c5Out : List SearchResult :=
  [⟨1, "a", 1/61 + 1/61, "p.rs", "rs", 0⟩, ⟨2, "b", 1/62 + 1/62, "q.rs", "rs", 0⟩]

/-- Witness for C5 on two chunks ranked 1 and 2 in both lists. -/
theorem c5_rrf_monotone_witness :
    (c5Out.map (fun r => r.id)).indexOf 1 < (c5Out.map (fun r => r.id)).indexOf 2 ∧
    ∀ limit : Nat, 2 ∈ (c5Out.take limit).map (fun r => r.id) →
      1 ∈ (c5Out.take limit).map (fun r => r.id) :=
  c5_rrf_monotone c5Vec c5Fts c5Out 1 2 (by decide) (by decide) (by decide) (by decide)
    (by decide) (by decide) (by decide) (by decide)
    (by intro r hr
        simp only [c5Out, List.mem_cons, List.not_mem_nil, or_false] at hr
        rcases hr with h | h <;>
          (subst h; norm_num [rrfScore, rrfSumFrom, c5Vec, c5Fts]))
    (by norm_num [sortedByScoreDesc, c5Out])
    (by decide) (by decide)

/-- A chunk as produced by `chunker.rs` (`Chunk { start, end, content,
metadata }`); text is a byte-faithful `List Char`, markdown metadata is
the header stack itself (its JSON rendering carries no offsets). -/
structure ChunkM where
  start : Nat
  stop : Nat
  content : List Char
  metadata : Option (List (List Char))
deriving DecidableEq, Repr

/-- Rust `str::len`: the UTF-8 byte length. -/
def byteLen (l : List Char) : Nat := (l.map Char.utf8Size).sum

theorem byteLen_append (a b : List Char) : byteLen (a ++ b) = byteLen a + byteLen b := by
  simp [byteLen]

/-- Rust `content.split("\n\n")` (chunker.rs:339): leftmost,
non-overlapping split on the two-byte separator. -/
def splitNN : List Char → List (List Char)
  | [] => [[]]
  | '\n' :: '\n' :: rest => [] :: splitNN rest
  | c :: rest =>
      match splitNN rest with
      | [] => [[c]]
      | p :: ps => (c :: p) :: ps

/-- Re-interleave the split pieces with the `"\n\n"` separator. -/
def joinNN : List (List Char) → List Char
  | [] => []
  | [p] => p
  | p :: ps => p ++ '\n' :: '\n' :: joinNN ps

theorem splitNN_ne_nil (l : List Char) : splitNN l ≠ [] := by
  induction l using splitNN.induct <;> simp_all [splitNN]

theorem splitNN_join (l : List Char) : joinNN (splitNN l) = l := by
  induction l using splitNN.induct with
  | case1 => rfl
  | case2 rest ih =>
      rcases hs : splitNN rest with _ | ⟨p, ps⟩
      · exact absurd hs (splitNN_ne_nil rest)
      · rw [hs] at ih
        simp [splitNN, hs, joinNN, ih]
  | case3 c rest h hnil ih => exact absurd hnil (splitNN_ne_nil rest)
  | case4 c rest h p ps hps ih =>
      rw [hps] at ih
      have hsplit : splitNN (c :: rest) = (c :: p) :: ps := by
        simp [splitNN, hps]
      rcases ps with _ | ⟨q, qs⟩
      · simp [hsplit, joinNN]
        simpa [joinNN] using ih
      · rw [hsplit]
        show (c :: p) ++ '\n' :: '\n' :: joinNN (q :: qs) = c :: rest
        simp only [List.cons_append]
        simpa [joinNN] using ih

/-- The paragraph loop of `chunk_text` (chunker.rs:334-357): an empty
piece advances the offset by 2; a non-empty piece becomes a chunk
`(start, start+len)` and advances the offset by `len + 2`. -/
def chunkTextGo (start : Nat) : List (List Char) → List ChunkM
  | [] => []
  | p :: ps =>
      let len := byteLen p
      if len = 0 then chunkTextGo (start + 2) ps
      else ⟨start, start + len, p, none⟩ :: chunkTextGo (start + len + 2) ps

/-- `chunk_text` (chunker.rs:334-357). -/
def chunkTextM (content : List Char) : List ChunkM :=
  chunkTextGo 0 (splitNN content)

/-- "The byte slice of `content` from `a` to `b` equals `chunk`":
`content` decomposes around `chunk` with `a` bytes before it and
`b = a +` its byte length. -/
def sliceEqAt (content chunk : List Char) (a b : Nat) : Prop :=
  ∃ pre suf, content = pre ++ chunk ++ suf ∧ byteLen pre = a ∧ b = a + byteLen chunk

/-- A slice that equals the chunk ends within the content. -/
theorem sliceEqAt_le {content chunk : List Char} {a b : Nat}
    (h : sliceEqAt content chunk a b) : a + byteLen chunk ≤ byteLen content := by
  obtain ⟨pre, suf, hdec, ha, _⟩ := h
  rw [hdec, byteLen_append, byteLen_append, ha]
  omega

/-- Every chunk the text-strategy loop emits is a byte-true slice of
the remaining input, offset by the consumed prefix. -/
theorem chunkTextGo_slice (pieces : List (List Char)) :
    ∀ (pre : List Char) (c : ChunkM), c ∈ chunkTextGo (byteLen pre) pieces →
      sliceEqAt (pre ++ joinNN pieces) c.content c.start c.stop := by
  induction pieces with
  | nil => intro pre c hc; simp [chunkTextGo] at hc
  | cons p ps ih =>
      intro pre c hc
      simp only [chunkTextGo] at hc
      by_cases hlen : byteLen p = 0
      · rw [if_pos hlen] at hc
        rcases ps with _ | ⟨q, qs⟩
        · simp [chunkTextGo] at hc
        · have hnl : byteLen ['\n', '\n'] = 2 := by decide
          have hpre : byteLen pre + 2 = byteLen (pre ++ p ++ ['\n', '\n']) := by
            rw [byteLen_append, byteLen_append, hlen, hnl]
          rw [hpre] at hc
          have hres := ih (pre ++ p ++ ['\n', '\n']) c hc
          have hcontent : (pre ++ p ++ ['\n', '\n']) ++ joinNN (q :: qs) =
              pre ++ joinNN (p :: q :: qs) := by
            show _ = pre ++ (p ++ '\n' :: '\n' :: joinNN (q :: qs))
            simp
          rwa [hcontent] at hres
      · rw [if_neg hlen] at hc
        rcases List.mem_cons.1 hc with hhead | htail
        · subst hhead
          rcases ps with _ | ⟨q, qs⟩
          · exact ⟨pre, [], by simp [joinNN], rfl, rfl⟩
          · exact ⟨pre, '\n' :: '\n' :: joinNN (q :: qs), by simp [joinNN], rfl, rfl⟩
        · rcases ps with _ | ⟨q, qs⟩
          · simp [chunkTextGo] at htail
          · have hnl : byteLen ['\n', '\n'] = 2 := by decide
            have hpre : byteLen pre + byteLen p + 2 = byteLen (pre ++ p ++ ['\n', '\n']) := by
              rw [byteLen_append, byteLen_append, hnl]
            rw [hpre] at htail
            have hres := ih (pre ++ p ++ ['\n', '\n']) c htail
            have hcontent : (pre ++ p ++ ['\n', '\n']) ++ joinNN (q :: qs) =
                pre ++ joinNN (p :: q :: qs) := by
              show _ = pre ++ (p ++ '\n' :: '\n' :: joinNN (q :: qs))
              simp
            rwa [hcontent] at hres

/-- Rust `str::trim` (ASCII whitespace is what the inputs here use). -/
def trimM (l : List Char) : List Char :=
  ((l.dropWhile Char.isWhitespace).reverse.dropWhile Char.isWhitespace).reverse

/-- Rust `str::lines` strips one trailing `'\r'` from each line. -/
def stripTrailingCR (l : List Char) : List Char :=
  match l.getLast? with
  | some '\r' => l.dropLast
  | _ => l

/-- Split on every single `'\n'`. -/
def splitNL : List Char → List (List Char)
  | [] => [[]]
  | '\n' :: rest => [] :: splitNL rest
  | c :: rest =>
      match splitNL rest with
      | [] => [[c]]
      | p :: ps => (c :: p) :: ps

/-- Rust `content.lines()` (chunker.rs:270): newline-terminated lines,
the final line ending optional, `'\r'` stripped. -/
def linesM (content : List Char) : List (List Char) :=
  match content with
  | [] => []
  | _ =>
      let ps := splitNL content
      (if ps.getLast? = some [] then ps.dropLast else ps).map stripTrailingCR

/-- Markdown chunk metadata (chunker.rs:275-279): the header stack when
it is non-empty. -/
def mdMeta (stack : List (List Char)) : Option (List (List Char)) :=
  if stack.isEmpty then none else some stack

/-- The line loop of `chunk_markdown` (chunker.rs:264-324), with the
accumulated-chunk start `ccs`, accumulated content `ccc` and header
stack. A heading line flushes the accumulator as a chunk
`(ccs, ccs + len(ccc))`, updates the stack (push deeper, else truncate
to `level-1` and push) and restarts the accumulator at
`ccs + len(ccc) + 1` — the source's `+1 for newline (approx)`. -/
def chunkMarkdownGo : List (List Char) → Nat → List Char → List (List Char) → List ChunkM
  | [], ccs, ccc, stack =>
      if trimM ccc ≠ [] then [⟨ccs, ccs + byteLen ccc, ccc, mdMeta stack⟩] else []
  | line :: rest, ccs, ccc, stack =>
      if line.head? = some '#' then
        let pushed : List ChunkM :=
          if trimM ccc ≠ [] then [⟨ccs, ccs + byteLen ccc, ccc, mdMeta stack⟩] else []
        let level := (line.takeWhile (fun c => c = '#')).length
        let title := trimM (line.drop level)
        let stack' := if level > stack.length then stack ++ [title]
                      else (stack.take (level - 1)) ++ [title]
        pushed ++ chunkMarkdownGo rest (ccs + byteLen ccc + 1) (line ++ ['\n']) stack'
      else
        chunkMarkdownGo rest ccs (ccc ++ line ++ ['\n']) stack

/-- `chunk_markdown` (chunker.rs:264-332), including the fall-through to
`chunk_text` when no chunk was produced and the content is not blank. -/
def chunkMarkdownM (content : List Char) : List ChunkM :=
  let cs := chunkMarkdownGo (linesM content) 0 [] []
  if cs.isEmpty ∧ trimM content ≠ [] then chunkTextM content else cs

/-- Every chunk the markdown loop emits satisfies
`stop = start + byteLen content` by construction. -/
theorem chunkMarkdownGo_stop (ls : List (List Char)) :
    ∀ (ccs : Nat) (ccc : List Char) (stack : List (List Char)) (c : ChunkM),
      c ∈ chunkMarkdownGo ls ccs ccc stack → c.stop = c.start + byteLen c.content := by
  induction ls with
  | nil =>
      intro ccs ccc stack c hc
      simp only [chunkMarkdownGo] at hc
      split at hc
      · rcases List.mem_cons.1 hc with h | h
        · subst h; rfl
        · cases h
      · cases hc
  | cons line rest ih =>
      intro ccs ccc stack c hc
      simp only [chunkMarkdownGo] at hc
      split at hc
      · rcases List.mem_append.1 hc with h | h
        · split at h
          · rcases List.mem_cons.1 h with h' | h'
            · subst h'; rfl
            · cases h'
          · cases h
        · exact ih _ _ _ c h
      · exact ih _ _ _ c hc

/-- C7 amended: the plain-text strategy produces byte-true slices —
each chunk's `(start, stop)` selects exactly its content inside the
input — while the markdown strategy only guarantees
`stop = start + byteLen content`; its `start` can drift (see the
counterexample). -/
theorem c7_offsets_amended :
    (∀ content : List Char, ∀ c ∈ chunkTextM content,
        sliceEqAt content c.content c.start c.stop) ∧
    (∀ content : List Char, ∀ c ∈ chunkMarkdownM content,
        c.stop = c.start + byteLen c.content) := by
  have htext : ∀ content : List Char, ∀ c ∈ chunkTextM content,
      sliceEqAt content c.content c.start c.stop := by
    intro content c hc
    have h0 : (0 : Nat) = byteLen [] := rfl
    rw [chunkTextM, h0] at hc
    have := chunkTextGo_slice (splitNN content) [] c hc
    rwa [List.nil_append, splitNN_join] at this
  refine ⟨htext, fun content c hc => ?_⟩
  rw [chunkMarkdownM] at hc
  split at hc
  · obtain ⟨_, _, _, _, hb⟩ := htext content c hc
    exact hb
  · exact chunkMarkdownGo_stop _ _ _ _ c hc

/-- Witness for C7 amended: the spec's own scenario inputs. -/
theorem c7_offsets_amended_witness :
    ((⟨0, 6, "Para 1".data, none⟩ : ChunkM) ∈ chunkTextM ("Para 1\n\nPara 2").data) ∧
    sliceEqAt ("Para 1\n\nPara 2").data "Para 1".data 0 6 ∧
    ((⟨1, 24, "# Header 1\nSome text.\n\n".data, some ["Header 1".data]⟩ : ChunkM) ∈
        chunkMarkdownM ("# Header 1\nSome text.\n\n## Header 2\nMore text.\n").data) ∧
    (24 : Nat) = 1 + byteLen "# Header 1\nSome text.\n\n".data := by
  refine ⟨by decide, ?_, by decide, ?_⟩
  · exact c7_offsets_amended.1 ("Para 1\n\nPara 2").data
      ⟨0, 6, "Para 1".data, none⟩ (by decide)
  · exact c7_offsets_amended.2 ("# Header 1\nSome text.\n\n## Header 2\nMore text.\n").data
      ⟨1, 24, "# Header 1\nSome text.\n\n".data, some ["Header 1".data]⟩ (by decide)

/-- C7 counterexample: on the markdown input
`"# Header 1\nSome text.\n\n## Header 2\nMore text.\n"` the second
chunk's offsets `(25, 48)` reach past the 46-byte input, so its byte
slice cannot equal its content (the start offsets drifted by the
`+1 for newline (approx)` accounting). -/
theorem c7_markdown_slice_counterexample :
    ∃ c ∈ chunkMarkdownM ("# Header 1\nSome text.\n\n## Header 2\nMore text.\n").data,
      ¬ sliceEqAt ("# Header 1\nSome text.\n\n## Header 2\nMore text.\n").data
          c.content c.start c.stop := by
  refine ⟨⟨25, 48, "## Header 2\nMore text.\n".data,
      some ["Header 1".data, "Header 2".data]⟩, by decide, fun h => ?_⟩
  have hle := sliceEqAt_le h
  revert hle
  decide

/-- Sum of squares of a vector (the norm computation of
embeddings.rs:112 before the square root). -/
def sumSq (v : List ℝ) : ℝ := (v.map (fun x => x * x)).sum

/-- `pooled.iter().map(|x| x*x).sum::<f32>().sqrt()` (embeddings.rs:112). -/
noncomputable def l2norm (v : List ℝ) : ℝ := Real.sqrt (sumSq v)

/-- The final step of `Embedder::embed` (embeddings.rs:112-117): divide
by the norm only when `norm > 1e-6`, else return the vector unchanged. -/
noncomputable def normalizeStep (v : List ℝ) : List ℝ :=
  if l2norm v > 1/1000000 then v.map (fun x => x / l2norm v) else v

/-- A second definition following the spec's words (§4.2 step 4):
"L2-normalize: divide by `max(‖v‖, 1e-6)`" — kept separate so the code's
conditional step can be compared against it. -/
noncomputable def specNormalizeEmbedding (v : List ℝ) : List ℝ :=
  v.map (fun x => x / max (l2norm v) (1/1000000))

/-- The masked mean-pooling loop (embeddings.rs:89-109): positions with
attention mask 1 contribute `data[i*hidden + j]`; the sums are divided
by the count only when it is positive. -/
noncomputable def meanPool (hidden : Nat) (mask : List Int) (data : List ℝ) : List ℝ :=
  let act := (mask.enum.filter (fun p => p.2 = 1)).map (fun p => p.1)
  let count := act.length
  (List.range hidden).map (fun j =>
    let s := (act.map (fun i => data.getD (i * hidden + j) 0)).sum
    if 0 < count then s / (count : ℝ) else s)

theorem sumSq_nonneg (v : List ℝ) : 0 ≤ sumSq v := by
  apply List.sum_nonneg
  intro x hx
  rcases List.mem_map.1 hx with ⟨y, _, rfl⟩
  exact mul_self_nonneg y

theorem sumSq_cons (x : ℝ) (t : List ℝ) : sumSq (x :: t) = x * x + sumSq t := by
  simp [sumSq]

theorem sumSq_map_div (v : List ℝ) (c : ℝ) :
    sumSq (v.map (fun x => x / c)) = sumSq v / c ^ 2 := by
  induction v with
  | nil => simp [sumSq]
  | cons x t ih =>
      rw [List.map_cons, sumSq_cons, sumSq_cons, ih]
      ring

/-- C6 amended: whenever the pooled norm exceeds `1e-6`, the code's
conditional step coincides with the spec's `max` formula and the result
is an exact unit vector (in real arithmetic, hence within `1e-4` of 1);
at or below `1e-6` the vector is returned unchanged instead. -/
theorem c6_normalize_amended (v : List ℝ) (h : l2norm v > 1/1000000) :
    normalizeStep v = specNormalizeEmbedding v ∧ l2norm (normalizeStep v) = 1 := by
  have hpos : 0 < l2norm v := lt_trans (by norm_num) h
  have hS : (0 : ℝ) < sumSq v := by
    have := Real.sqrt_pos.1 (by rw [← l2norm]; exact hpos)
    exact this
  have hmax : max (l2norm v) (1/1000000) = l2norm v := max_eq_left (le_of_lt h)
  have hstep : normalizeStep v = v.map (fun x => x / l2norm v) := if_pos h
  constructor
  · rw [hstep, specNormalizeEmbedding, hmax]
  · rw [hstep]
    show Real.sqrt (sumSq (v.map (fun x => x / l2norm v))) = 1
    rw [sumSq_map_div]
    have hsq : l2norm v ^ 2 = sumSq v := Real.sq_sqrt (sumSq_nonneg v)
    rw [hsq, div_self (ne_of_gt hS), Real.sqrt_one]

/-- Witness for C6 amended at the one-dimensional unit vector. -/
theorem c6_normalize_amended_witness :
    l2norm [(1 : ℝ)] > 1/1000000 ∧
    (normalizeStep [(1 : ℝ)] = specNormalizeEmbedding [(1 : ℝ)] ∧
     l2norm (normalizeStep [(1 : ℝ)]) = 1) := by
  have h1 : l2norm [(1 : ℝ)] = 1 := by
    show Real.sqrt (sumSq [(1 : ℝ)]) = 1
    rw [sumSq_cons]
    norm_num [sumSq, Real.sqrt_one]
  have h : l2norm [(1 : ℝ)] > 1/1000000 := by rw [h1]; norm_num
  exact ⟨h, c6_normalize_amended [(1 : ℝ)] h⟩

/-- C6 counterexample: the final step is not division by
`max(‖v‖, 1e-6)` — at pooled vector `[1e-7]` the code returns the
vector unchanged while the spec formula rescales it to `[1/10]` — and
an all-masked input pools to the zero vector, which is returned with
norm 0, not within `1e-4` of 1. -/
theorem c6_normalize_counterexample :
    normalizeStep [(1/10000000 : ℝ)] ≠ specNormalizeEmbedding [(1/10000000 : ℝ)] ∧
    meanPool 1 [0] [(5 : ℝ)] = [(0 : ℝ)] ∧
    |l2norm (normalizeStep (meanPool 1 [0] [(5 : ℝ)])) - 1| > 1/10000 := by
  have hx : l2norm [(1/10000000 : ℝ)] = 1/10000000 := by
    show Real.sqrt (sumSq [(1/10000000 : ℝ)]) = 1/10000000
    rw [sumSq_cons]
    have : (1/10000000 : ℝ) * (1/10000000) + sumSq [] = (1/10000000 : ℝ) ^ 2 := by
      simp [sumSq]; ring
    rw [this, Real.sqrt_sq (by norm_num)]
  have hpool : meanPool 1 [0] [(5 : ℝ)] = [(0 : ℝ)] := by
    simp [meanPool, List.enum]
  have hzero : l2norm [(0 : ℝ)] = 0 := by
    show Real.sqrt (sumSq [(0 : ℝ)]) = 0
    rw [sumSq_cons]
    norm_num [sumSq, Real.sqrt_zero]
  have hstep0 : normalizeStep [(0 : ℝ)] = [(0 : ℝ)] := by
    rw [normalizeStep, if_neg]
    rw [hzero]
    norm_num
  refine ⟨?_, hpool, ?_⟩
  · rw [normalizeStep, if_neg (by rw [hx]; norm_num), specNormalizeEmbedding, hx]
    have hmax : max (1/10000000 : ℝ) (1/1000000) = 1/1000000 := max_eq_right (by norm_num)
    rw [hmax]
    simp only [List.map_cons, List.map_nil, ne_eq, List.cons.injEq, and_true]
    norm_num
  · rw [hpool, hstep0, hzero]
    norm_num

/-- A JSON-RPC error object (mcp/server.rs:27-31). -/
structure JsonRpcErrorM where
  code : Int
  message : String
deriving DecidableEq, Repr

/-- `api/mod.rs::handle_query` (lines 135-183): an embedding error is
logged and an empty result list is returned to the client; on success
the enhanced search runs (its own error also degrades to empty, so the
model keeps only its result list). -/
def apiHandleQuery (embedResult : Except String (List ℚ)) (db : DbState) (cache : Cache)
    (opts : SearchOptions) (now : Nat) : List SearchResult :=
  match embedResult with
  | .error _ => []
  | .ok emb => (searchChunksEnhanced db cache emb opts now).1

/-- The `search_context` arm of `mcp/server.rs::handle_request` (lines
176-224): an embedding error becomes `Err(JsonRpcError { code: -32603,
message: "Embedding failed: .." })`, which `handle_request` serializes
as a JSON-RPC *error response*; only the `Ok` branch carries results. -/
def mcpSearchContext (embedResult : Except String (List ℚ)) (db : DbState) (cache : Cache)
    (opts : SearchOptions) (now : Nat) : Except JsonRpcErrorM (List SearchResult) :=
  match embedResult with
  | .error e => .error ⟨-32603, "Embedding failed: " ++ e⟩
  | .ok emb => .ok (searchChunksEnhanced db cache emb opts now).1

/-- C8 counterexample: when the query embedding fails, the JSON-RPC tool
path answers with an error response (code -32603), not with an empty
result set — the claim fails on that surface. -/
theorem c8_mcp_embed_error_counterexample :
    mcpSearchContext (.error "model failure") ⟨[], []⟩ [] {} 0 =
      .error ⟨-32603, "Embedding failed: model failure"⟩ ∧
    mcpSearchContext (.error "model failure") ⟨[], []⟩ [] {} 0 ≠ .ok [] := by
  refine ⟨rfl, ?_⟩
  simp [mcpSearchContext]

/-- C8 amended: on an embedding failure the network API returns an
empty result set, while the JSON-RPC tool protocol surfaces the failure
as a JSON-RPC error with code -32603. -/
theorem c8_embed_error_amended (e : String) (db : DbState) (cache : Cache)
    (opts : SearchOptions) (now : Nat) :
    apiHandleQuery (.error e) db cache opts now = [] ∧
    mcpSearchContext (.error e) db cache opts now =
      .error ⟨-32603, "Embedding failed: " ++ e⟩ :=
  ⟨rfl, rfl⟩

/-- A raw filesystem notification (`notify::Event`), reduced to the
paths it reports. -/
structure NotifyEvent where
  paths : List String
deriving DecidableEq, Repr

/-- The forward thread of `watcher.rs::watch` (lines 13-23): every
`Ok(event)` received from the backend is sent to the sink immediately
and unchanged — "Simple debounce/filter could go here, but for Phase 1
just forward" — errors are only printed. -/
def watcherForward (incoming : List (Except String NotifyEvent)) : List NotifyEvent :=
  incoming.filterMap (fun r => match r with | .ok e => some e | .error _ => none)

/-- C9: two raw events arriving within any debounce window are
delivered as two separate single-event messages, never coalesced into
one batch of paths — the watcher performs no debouncing at all. -/
theorem c9_watcher_no_coalescing :
    watcherForward [.ok ⟨["/w/a.rs"]⟩, .ok ⟨["/w/b.rs"]⟩] =
      [⟨["/w/a.rs"]⟩, ⟨["/w/b.rs"]⟩] ∧
    (watcherForward [.ok ⟨["/w/a.rs"]⟩, .ok ⟨["/w/b.rs"]⟩]).length = 2 :=
  ⟨rfl, rfl⟩
